import Mathlib

/-!
Verification of the transcription pipeline in 文字おこし.py.

Floating-point times are modelled as exact rationals (ℚ); Python strings are
Lean strings, with str.strip modelled over the usual ASCII whitespace
characters (Char.isWhitespace).
-/

/-- Model of Python str.strip: remove leading and trailing whitespace. -/
def pyStrip (s : String) : String :=
  String.mk (((s.data.dropWhile Char.isWhitespace).reverse.dropWhile
      Char.isWhitespace).reverse)

/-- Translation of tokens_to_text (line 81): join the tokens, then strip. -/
def tokens_to_text (tokens : List String) : String :=
  pyStrip (String.join tokens)

/-- Decimal digit character, 48 is the code of the character zero. -/
def digitChar (d : ℕ) : Char := Char.ofNat (48 + d)

/-- Decimal digits of a natural number, most significant first.
The first argument is fuel, sufficient whenever the number is below it. -/
def decReprAux : ℕ → ℕ → List Char
  | 0, _ => []
  | fuel + 1, n =>
    if n < 10 then [digitChar n]
    else decReprAux fuel (n / 10) ++ [digitChar (n % 10)]

/-- Decimal representation of a natural number as a list of characters. -/
def decRepr (n : ℕ) : List Char := decReprAux (n + 1) n

/-- Model of a Python zero-padding format such as 02d or 03d applied to a
nonnegative integer: pad on the left with zeros up to the given width. -/
def padZero (w : ℕ) (cs : List Char) : List Char :=
  List.replicate (w - cs.length) '0' ++ cs

/-- Model of Python str applied to a natural number. -/
def natStr (n : ℕ) : String := String.mk (decRepr n)

/-- Numeric value denoted by a list of decimal digit characters. -/
def digitsDenote (cs : List Char) : ℕ :=
  cs.foldl (fun a c => 10 * a + (c.toNat - 48)) 0

/-- Translation of the clamp at lines 28 and 29: negative seconds become 0. -/
def clampNonneg (x : ℚ) : ℚ := if x < 0 then 0 else x

/-- Model of the Python built-in round on an exact value: round to the
nearest integer, ties going to the even integer. -/
def pyRound (x : ℚ) : ℤ :=
  let f := ⌊x⌋
  let r := x - (f : ℚ)
  if r < 1 / 2 then f
  else if 1 / 2 < r then f + 1
  else if f % 2 = 0 then f else f + 1

/-- Total milliseconds computed at line 30: ms = int(round(seconds * 1000))
after the negative clamp.  The value is nonnegative, so it lives in ℕ. -/
def msTotal (x : ℚ) : ℕ := (pyRound (clampNonneg x * 1000)).toNat

/-- Translation of the field decomposition at lines 31 to 36. -/
def srtFields (x : ℚ) : ℕ × ℕ × ℕ × ℕ :=
  let ms0 := msTotal x
  let h := ms0 / 3600000
  let ms1 := ms0 % 3600000
  let m := ms1 / 60000
  let ms2 := ms1 % 60000
  let s := ms2 / 1000
  let msf := ms2 % 1000
  (h, m, s, msf)

/-- Translation of srt_time (lines 26 to 37): clamp, round to milliseconds,
decompose, and render as HH:MM:SS,mmm with zero-padded fields. -/
def srt_time (x : ℚ) : String :=
  let f := srtFields x
  String.mk (padZero 2 (decRepr f.1) ++ ':' :: padZero 2 (decRepr f.2.1) ++
    ':' :: padZero 2 (decRepr f.2.2.1) ++ ',' :: padZero 3 (decRepr f.2.2.2))

/-- Token of the recognizer output, a subword with its segment-relative
time in seconds (ret.subwords elements, lines 105 to 107). -/
structure Subword where
  seconds : ℚ
  token : String

/-- Loop of build_srt_from_subwords (lines 105 to 126).  The state is the
current buffer cur_tokens together with cur_start and cur_last, each None
or a time; the remaining subwords are consumed in order and finished lines
are emitted in order.  After the loop, a nonempty buffer with both times
set is flushed (lines 125 and 126). -/
def buildSrtAux (max_line_sec : ℚ) (max_chars : ℕ) (pad_end_sec : ℚ)
    (segment_offset : ℚ) :
    List Subword → List String → Option ℚ → Option ℚ → List (ℚ × ℚ × String)
  | [], cur_tokens, cur_start, cur_last =>
    match cur_tokens, cur_start, cur_last with
    | _ :: _, some st, some la => [(st, la + pad_end_sec, tokens_to_text cur_tokens)]
    | _, _, _ => []
  | sw :: rest, cur_tokens, cur_start, _cur_last =>
    let t := sw.seconds + segment_offset
    let tok := sw.token
    match cur_start with
    | none => buildSrtAux max_line_sec max_chars pad_end_sec segment_offset
        rest [tok] (some t) (some t)
    | some st =>
      let toks := cur_tokens ++ [tok]
      let text := tokens_to_text toks
      if max_line_sec ≤ t - st ∨ max_chars ≤ text.length then
        (st, t + pad_end_sec, text) ::
          buildSrtAux max_line_sec max_chars pad_end_sec segment_offset
            rest [] none none
      else
        buildSrtAux max_line_sec max_chars pad_end_sec segment_offset
          rest toks (some st) (some t)

/-- Translation of build_srt_from_subwords (lines 86 to 128) with all the
parameters explicit. -/
def build_srt_from_subwords (subwords : List Subword) (segment_offset : ℚ)
    (max_line_sec : ℚ) (max_chars : ℕ) (pad_end_sec : ℚ) :
    List (ℚ × ℚ × String) :=
  buildSrtAux max_line_sec max_chars pad_end_sec segment_offset
    subwords [] none none

/-- The assembler at the default parameters of the source (max_line_sec 4.0,
max_chars 26, pad_end_sec 0.25), as called from main at line 176. -/
def buildSrtDefault (subwords : List Subword) (segment_offset : ℚ) :
    List (ℚ × ℚ × String) :=
  build_srt_from_subwords subwords segment_offset 4 26 (1 / 4)

example : msTotal 0 = 0 := by
  norm_num [msTotal, pyRound, clampNonneg]

example : srt_time 0 = "00:00:00,000" := by
  have h : msTotal 0 = 0 := by norm_num [msTotal, pyRound, clampNonneg]
  simp only [srt_time, srtFields, h]
  decide

example : srt_time (-5) = "00:00:00,000" := by
  have h : msTotal (-5) = 0 := by norm_num [msTotal, pyRound, clampNonneg]
  simp only [srt_time, srtFields, h]
  decide

example : srt_time (1 / 400) = "00:00:00,002" := by
  have h : msTotal (1 / 400) = 2 := by
    norm_num [msTotal, pyRound, clampNonneg]
    all_goals decide
  simp only [srt_time, srtFields, h]
  decide

/-! Basic facts about pyRound, the model of the Python built-in round. -/

theorem floor_le_pyRound (x : ℚ) : ⌊x⌋ ≤ pyRound x := by
  simp only [pyRound]
  split_ifs <;> omega

theorem pyRound_le_floor_add_one (x : ℚ) : pyRound x ≤ ⌊x⌋ + 1 := by
  simp only [pyRound]
  split_ifs <;> omega

theorem pyRound_of_fract_lt (x : ℚ) (h : x - (⌊x⌋ : ℚ) < 1 / 2) :
    pyRound x = ⌊x⌋ := by
  simp only [pyRound]
  rw [if_pos h]

theorem pyRound_of_lt_fract (x : ℚ) (h : 1 / 2 < x - (⌊x⌋ : ℚ)) :
    pyRound x = ⌊x⌋ + 1 := by
  simp only [pyRound]
  rw [if_neg (by linarith), if_pos h]

theorem pyRound_of_fract_eq (x : ℚ) (h : x - (⌊x⌋ : ℚ) = 1 / 2) :
    pyRound x = if ⌊x⌋ % 2 = 0 then ⌊x⌋ else ⌊x⌋ + 1 := by
  simp only [pyRound]
  rw [if_neg (by linarith), if_neg (by linarith)]

theorem pyRound_nonneg (x : ℚ) (h : 0 ≤ x) : 0 ≤ pyRound x := by
  have hf : (0 : ℤ) ≤ ⌊x⌋ := Int.floor_nonneg.mpr h
  have := floor_le_pyRound x
  omega

/-- Monotonicity of the Python round model. -/
theorem pyRound_mono {x y : ℚ} (h : x ≤ y) : pyRound x ≤ pyRound y := by
  rcases lt_or_le ⌊x⌋ ⌊y⌋ with hf | hf
  · have h1 := pyRound_le_floor_add_one x
    have h2 := floor_le_pyRound y
    omega
  · have hfe : ⌊x⌋ = ⌊y⌋ := le_antisymm (Int.floor_le_floor h) hf
    have hfq : ((⌊x⌋ : ℤ) : ℚ) = ((⌊y⌋ : ℤ) : ℚ) := by exact_mod_cast hfe
    by_cases hy1 : y - (⌊y⌋ : ℚ) < 1 / 2
    · have hx1 : x - (⌊x⌋ : ℚ) < 1 / 2 := by linarith
      rw [pyRound_of_fract_lt x hx1, pyRound_of_fract_lt y hy1, hfe]
    · by_cases hx2 : 1 / 2 < x - (⌊x⌋ : ℚ)
      · have hy2 : 1 / 2 < y - (⌊y⌋ : ℚ) := by linarith
        rw [pyRound_of_lt_fract x hx2, pyRound_of_lt_fract y hy2, hfe]
      · by_cases hy2 : 1 / 2 < y - (⌊y⌋ : ℚ)
        · have h1 := pyRound_le_floor_add_one x
          rw [pyRound_of_lt_fract y hy2]
          omega
        · have hy : y - (⌊y⌋ : ℚ) = 1 / 2 := by linarith
          rcases lt_or_le (x - (⌊x⌋ : ℚ)) (1 / 2) with hc | hc
          · rw [pyRound_of_fract_lt x hc]
            have h2 := floor_le_pyRound y
            omega
          · have hx : x - (⌊x⌋ : ℚ) = 1 / 2 := by linarith
            rw [pyRound_of_fract_eq x hx, pyRound_of_fract_eq y hy, hfe]

/-- Nearest: the model of round differs from its input by at most half. -/
theorem pyRound_abs_le (x : ℚ) : |(pyRound x : ℚ) - x| ≤ 1 / 2 := by
  have h0 : (⌊x⌋ : ℚ) ≤ x := Int.floor_le x
  have h1 : x < (⌊x⌋ : ℚ) + 1 := Int.lt_floor_add_one x
  rcases lt_or_le (x - (⌊x⌋ : ℚ)) (1 / 2) with hc | hc
  · rw [pyRound_of_fract_lt x hc]
    rw [abs_le]
    constructor <;> linarith
  · rcases lt_or_le (1 / 2 : ℚ) (x - (⌊x⌋ : ℚ)) with hc2 | hc2
    · rw [pyRound_of_lt_fract x hc2]
      rw [abs_le]
      constructor <;> push_cast <;> linarith
    · have he : x - (⌊x⌋ : ℚ) = 1 / 2 := le_antisymm hc2 hc
      rw [pyRound_of_fract_eq x he]
      split_ifs with hp
      · rw [abs_le]
        constructor <;> linarith
      · rw [abs_le]
        constructor <;> push_cast <;> linarith

/-- Tie behaviour: at an exact half the model of round returns an even
integer. -/
theorem pyRound_tie_even (x : ℚ) (h : Int.fract x = 1 / 2) :
    pyRound x % 2 = 0 := by
  have he : x - (⌊x⌋ : ℚ) = 1 / 2 := by
    rw [Int.fract] at h
    exact h
  rw [pyRound_of_fract_eq x he]
  split_ifs with hpar
  · exact hpar
  · omega

theorem clampNonneg_nonneg (x : ℚ) : 0 ≤ clampNonneg x := by
  unfold clampNonneg
  split_ifs <;> linarith

theorem clampNonneg_mono {x y : ℚ} (h : x ≤ y) :
    clampNonneg x ≤ clampNonneg y := by
  unfold clampNonneg
  split_ifs <;> linarith

theorem clampNonneg_of_nonpos {x : ℚ} (h : x ≤ 0) : clampNonneg x = 0 := by
  unfold clampNonneg
  split_ifs with hc
  · rfl
  · exact le_antisymm h (not_lt.mp hc)

theorem msTotal_mono {x y : ℚ} (h : x ≤ y) : msTotal x ≤ msTotal y := by
  unfold msTotal
  have hle : clampNonneg x * 1000 ≤ clampNonneg y * 1000 :=
    mul_le_mul_of_nonneg_right (clampNonneg_mono h) (by norm_num)
  have := pyRound_mono hle
  omega

theorem msTotal_of_nonpos {x : ℚ} (h : x ≤ 0) : msTotal x = 0 := by
  unfold msTotal
  rw [clampNonneg_of_nonpos h, zero_mul]
  have hf : (⌊(0 : ℚ)⌋ : ℚ) = 0 := by norm_num
  rw [pyRound_of_fract_lt 0 (by rw [hf]; norm_num)]
  norm_num

/-- Total millisecond value encoded by a field quadruple. -/
def fieldsValue (f : ℕ × ℕ × ℕ × ℕ) : ℕ :=
  3600000 * f.1 + 60000 * f.2.1 + 1000 * f.2.2.1 + f.2.2.2

theorem fieldsValue_srtFields (x : ℚ) : fieldsValue (srtFields x) = msTotal x := by
  simp only [srtFields, fieldsValue]
  omega

/-- C8: the Time Codec is monotonic.  For inputs a ≤ b the timestamp
rendered by srt_time for a is at or before the one for b in time value:
the total millisecond value encoded by the four fields of the timestamp
(the natural order on the rendered strings, which agrees with the
lexicographic order at equal width) is monotone in the input. -/
theorem srt_time_monotone {a b : ℚ} (h : a ≤ b) :
    fieldsValue (srtFields a) ≤ fieldsValue (srtFields b) := by
  rw [fieldsValue_srtFields, fieldsValue_srtFields]
  exact msTotal_mono h

/-- Witness for srt_time_monotone at inputs 1 and 2. -/
theorem srt_time_monotone_witness :
    (1 : ℚ) ≤ 2 ∧ fieldsValue (srtFields 1) ≤ fieldsValue (srtFields 2) :=
  ⟨by norm_num, srt_time_monotone (by norm_num)⟩

/-- C3 counterexample: an input of exactly half a millisecond.  The code
rounds it to the even neighbour, 0 ms, so srt_time returns "00:00:00,000"
and not the "00:00:00,001" that round-half-away-from-zero would give. -/
theorem srt_time_half_ms_not_away_from_zero :
    srt_time (1 / 2000) = "00:00:00,000" ∧
      ("00:00:00,000" : String) ≠ "00:00:00,001" := by
  constructor
  · have h : msTotal (1 / 2000) = 0 := by
      norm_num [msTotal, pyRound, clampNonneg]
    simp only [srt_time, srtFields, h]
    decide
  · decide

/-- C3 (amended): srt_time clamps every negative input to 0 (so both
srt_time 0 and srt_time (-5) render "00:00:00,000"), and rounds
nonnegative input to the nearest millisecond with ties going to the even
millisecond (the rounding of the Python built-in round), not away from
zero. -/
theorem srt_time_clamps_and_rounds_nearest (x : ℚ) :
    (x < 0 → srt_time x = "00:00:00,000") ∧
      msTotal x = (pyRound (clampNonneg x * 1000)).toNat ∧
      |(pyRound (clampNonneg x * 1000) : ℚ) - clampNonneg x * 1000| ≤ 1 / 2 ∧
      (Int.fract (clampNonneg x * 1000) = 1 / 2 →
        pyRound (clampNonneg x * 1000) % 2 = 0) ∧
      srt_time 0 = "00:00:00,000" := by
  refine ⟨?_, rfl, pyRound_abs_le _, pyRound_tie_even _, ?_⟩
  · intro hneg
    have h : msTotal x = 0 := msTotal_of_nonpos (le_of_lt hneg)
    simp only [srt_time, srtFields, h]
    decide
  · have h : msTotal 0 = 0 := msTotal_of_nonpos (le_refl 0)
    simp only [srt_time, srtFields, h]
    decide

/-- Witness for srt_time_clamps_and_rounds_nearest at input -5. -/
theorem srt_time_clamps_and_rounds_nearest_witness :
    (-5 : ℚ) < 0 ∧ srt_time (-5) = "00:00:00,000" :=
  ⟨by norm_num, (srt_time_clamps_and_rounds_nearest (-5)).1 (by norm_num)⟩

/-- Evaluation of the assembler on the example of the spec: the fourth
token is appended to the buffer before the thresholds are checked, so the
single flushed line carries all four tokens. -/
theorem buildSrt_example_eval :
    buildSrtDefault [⟨0, "A"⟩, ⟨1, "B"⟩, ⟨2, "C"⟩, ⟨5, "D"⟩] 0 =
      [(0, 21 / 4, "ABCD")] := by
  have h1 : tokens_to_text ["A", "B"] = "AB" := by decide
  have h2 : tokens_to_text ["A", "B", "C"] = "ABC" := by decide
  have h3 : tokens_to_text ["A", "B", "C", "D"] = "ABCD" := by decide
  have h4 : ("AB" : String).length = 2 := by decide
  have h5 : ("ABC" : String).length = 3 := by decide
  norm_num [buildSrtDefault, build_srt_from_subwords, buildSrtAux,
    h1, h2, h3, h4, h5]

/-- C1 counterexample: on tokens A, B, C, D at seconds 0, 1, 2, 5 with
max_line_sec 4, max_chars 26, pad_end_sec 0.25 and offset 0, the assembler
does not return the claimed two entries (0, 5.25, "ABC"), (5, 5.25, "D"):
it returns the single entry (0, 5.25, "ABCD"). -/
theorem buildSrt_example_not_claimed :
    buildSrtDefault [⟨0, "A"⟩, ⟨1, "B"⟩, ⟨2, "C"⟩, ⟨5, "D"⟩] 0 ≠
      [(0, 21 / 4, "ABC"), (5, 21 / 4, "D")] := by
  rw [buildSrt_example_eval]
  simp

/-- C1 (amended): on tokens A, B, C, D at seconds 0, 1, 2, 5 with
max_line_sec 4, max_chars 26, pad_end_sec 0.25 and offset 0, the result is
exactly one entry (0.0, 5.25, "ABCD"): the fourth token is appended to the
buffer, makes the elapsed time 5.0 at or above 4.0, and the whole buffer
ABCD is flushed; no buffer remains at loop end. -/
theorem buildSrt_example_one_entry :
    buildSrtDefault [⟨0, "A"⟩, ⟨1, "B"⟩, ⟨2, "C"⟩, ⟨5, "D"⟩] 0 =
      [(0, 21 / 4, "ABCD")] :=
  buildSrt_example_eval

/-! Decimal rendering: the digit lists produced by decRepr are nonempty,
consist of digit characters, and denote the rendered number. -/

theorem digitChar_toNat : ∀ d < 10, (digitChar d).toNat = 48 + d := by decide

theorem digitChar_isDigit : ∀ d < 10, (digitChar d).isDigit = true := by decide

theorem digitsDenote_append_one (l : List Char) (c : Char) :
    digitsDenote (l ++ [c]) = 10 * digitsDenote l + (c.toNat - 48) := by
  unfold digitsDenote
  rw [List.foldl_append]
  rfl

theorem decReprAux_ne_nil : ∀ fuel n, n < fuel → decReprAux fuel n ≠ [] := by
  intro fuel
  induction fuel with
  | zero => intro n h; omega
  | succ fuel _ =>
    intro n _
    unfold decReprAux
    split_ifs <;> simp

theorem decReprAux_denote :
    ∀ fuel n, n < fuel → digitsDenote (decReprAux fuel n) = n := by
  intro fuel
  induction fuel with
  | zero => intro n h; omega
  | succ fuel ih =>
    intro n h
    unfold decReprAux
    split_ifs with h10
    · show digitsDenote [digitChar n] = n
      unfold digitsDenote
      simp only [List.foldl_cons, List.foldl_nil]
      rw [digitChar_toNat n h10]
      omega
    · have hdiv : n / 10 < n := Nat.div_lt_self (by omega) (by omega)
      rw [digitsDenote_append_one, ih (n / 10) (by omega),
        digitChar_toNat (n % 10) (Nat.mod_lt _ (by omega))]
      omega

theorem decReprAux_digits :
    ∀ fuel n, n < fuel → ∀ c ∈ decReprAux fuel n, c.isDigit = true := by
  intro fuel
  induction fuel with
  | zero => intro n h; omega
  | succ fuel ih =>
    intro n h c hc
    rw [decReprAux] at hc
    by_cases h10 : n < 10
    · rw [if_pos h10] at hc
      rcases List.mem_singleton.mp hc with rfl
      exact digitChar_isDigit n h10
    · rw [if_neg h10] at hc
      rcases List.mem_append.mp hc with hc1 | hc1
      · have hdiv : n / 10 < n := Nat.div_lt_self (by omega) (by omega)
        exact ih (n / 10) (by omega) c hc1
      · rcases List.mem_singleton.mp hc1 with rfl
        exact digitChar_isDigit (n % 10) (Nat.mod_lt _ (by omega))

theorem decRepr_denote (n : ℕ) : digitsDenote (decRepr n) = n :=
  decReprAux_denote (n + 1) n (by omega)

theorem decRepr_digits (n : ℕ) : ∀ c ∈ decRepr n, c.isDigit = true :=
  decReprAux_digits (n + 1) n (by omega)

theorem decRepr_ne_nil (n : ℕ) : decRepr n ≠ [] :=
  decReprAux_ne_nil (n + 1) n (by omega)

theorem padZero_length (w : ℕ) (cs : List Char) :
    (padZero w cs).length = max w cs.length := by
  simp [padZero]
  omega

theorem digitsDenote_replicate_zero (k : ℕ) (cs : List Char) :
    digitsDenote (List.replicate k '0' ++ cs) = digitsDenote cs := by
  induction k with
  | zero => simp
  | succ k ih =>
    rw [List.replicate_succ]
    unfold digitsDenote at ih ⊢
    simp only [List.cons_append, List.foldl_cons]
    have hc : 10 * 0 + ('0'.toNat - 48) = 0 := by decide
    rw [hc] at *
    exact ih

theorem padZero_denote (w : ℕ) (cs : List Char) :
    digitsDenote (padZero w cs) = digitsDenote cs :=
  digitsDenote_replicate_zero _ _

theorem padZero_digits (w : ℕ) (cs : List Char)
    (h : ∀ c ∈ cs, c.isDigit = true) :
    ∀ c ∈ padZero w cs, c.isDigit = true := by
  intro c hc
  rcases List.mem_append.mp hc with hc1 | hc1
  · rcases List.eq_of_mem_replicate hc1 with rfl
    decide
  · exact h c hc1

set_option maxRecDepth 40000 in
theorem padZero_two_length : ∀ n < 100, (padZero 2 (decRepr n)).length = 2 := by
  decide

set_option maxRecDepth 40000 in
theorem padZero_three_length :
    ∀ n < 1000, (padZero 3 (decRepr n)).length = 3 := by
  decide

/-- C10: every srt_time output is well formed.  The rendered string is the
hour field, the minute field, the second field and the millisecond field
joined by the separators of the format; the minute and second fields are
exactly two digit characters denoting values below 60, the millisecond
field is exactly three digit characters denoting a value below 1000, and
the hour field is at least two digit characters denoting the full
unbounded hour count (the fields jointly denote the exact total
millisecond value, so hours are never wrapped at 24). -/
theorem srt_time_well_formed (x : ℚ) :
    srt_time x = String.mk (padZero 2 (decRepr (srtFields x).1) ++
        ':' :: padZero 2 (decRepr (srtFields x).2.1) ++
        ':' :: padZero 2 (decRepr (srtFields x).2.2.1) ++
        ',' :: padZero 3 (decRepr (srtFields x).2.2.2)) ∧
      (srtFields x).2.1 < 60 ∧
      (padZero 2 (decRepr (srtFields x).2.1)).length = 2 ∧
      (∀ c ∈ padZero 2 (decRepr (srtFields x).2.1), c.isDigit = true) ∧
      digitsDenote (padZero 2 (decRepr (srtFields x).2.1)) = (srtFields x).2.1 ∧
      (srtFields x).2.2.1 < 60 ∧
      (padZero 2 (decRepr (srtFields x).2.2.1)).length = 2 ∧
      (∀ c ∈ padZero 2 (decRepr (srtFields x).2.2.1), c.isDigit = true) ∧
      digitsDenote (padZero 2 (decRepr (srtFields x).2.2.1)) = (srtFields x).2.2.1 ∧
      (srtFields x).2.2.2 < 1000 ∧
      (padZero 3 (decRepr (srtFields x).2.2.2)).length = 3 ∧
      (∀ c ∈ padZero 3 (decRepr (srtFields x).2.2.2), c.isDigit = true) ∧
      digitsDenote (padZero 3 (decRepr (srtFields x).2.2.2)) = (srtFields x).2.2.2 ∧
      2 ≤ (padZero 2 (decRepr (srtFields x).1)).length ∧
      (∀ c ∈ padZero 2 (decRepr (srtFields x).1), c.isDigit = true) ∧
      digitsDenote (padZero 2 (decRepr (srtFields x).1)) = (srtFields x).1 ∧
      fieldsValue (srtFields x) = msTotal x := by
  have hm : (srtFields x).2.1 < 60 := by
    simp only [srtFields]
    omega
  have hs : (srtFields x).2.2.1 < 60 := by
    simp only [srtFields]
    omega
  have hmsf : (srtFields x).2.2.2 < 1000 := by
    simp only [srtFields]
    omega
  refine ⟨rfl, hm, padZero_two_length _ (by omega),
    padZero_digits _ _ (decRepr_digits _),
    by rw [padZero_denote, decRepr_denote],
    hs, padZero_two_length _ (by omega),
    padZero_digits _ _ (decRepr_digits _),
    by rw [padZero_denote, decRepr_denote],
    hmsf, padZero_three_length _ (by omega),
    padZero_digits _ _ (decRepr_digits _),
    by rw [padZero_denote, decRepr_denote],
    ?_,
    padZero_digits _ _ (decRepr_digits _),
    by rw [padZero_denote, decRepr_denote],
    fieldsValue_srtFields x⟩
  rw [padZero_length]
  omega

/-- Loop of main at lines 168 to 171 restricted to the text pipeline:
each segment text is stripped and appended to all_text_parts only when
nonempty after the strip. -/
def collectTextParts : List String → List String
  | [] => []
  | t :: rest =>
    let seg_text := pyStrip t
    if seg_text = "" then collectTextParts rest
    else seg_text :: collectTextParts rest

/-- Serialization of the transcript at lines 179 and 180: join the parts
with single newlines, strip the whole, and append exactly one newline. -/
def fullTranscript (texts : List String) : String :=
  pyStrip (String.intercalate "\n" (collectTextParts texts)) ++ "\n"

theorem collectTextParts_eq (texts : List String) :
    collectTextParts texts = (texts.map pyStrip).filter (fun s => s ≠ "") := by
  induction texts with
  | nil => rfl
  | cons t rest ih =>
    by_cases h : pyStrip t = "" <;>
      simp [collectTextParts, h, ih]

/-- C7: the serialized transcript equals: each segment text trimmed, the
segments empty after trimming skipped entirely, the retained texts joined
by a single newline in segment order, the whole result trimmed, and
exactly one trailing newline appended. -/
theorem fullTranscript_spec (texts : List String) :
    fullTranscript texts =
      pyStrip (String.intercalate "\n"
        ((texts.map pyStrip).filter (fun s => s ≠ ""))) ++ "\n" := by
  unfold fullTranscript
  rw [collectTextParts_eq]

/-- Serialization loop for the subtitle file (lines 184 to 191): idx
enumerates ALL entries starting at 1; an entry with empty text is skipped
only after the index has been consumed.  Returns the emitted lines. -/
def srtBlocks : ℕ → List (ℚ × ℚ × String) → List String
  | _, [] => []
  | idx, (st, ed, txt) :: rest =>
    if txt = "" then srtBlocks (idx + 1) rest
    else natStr idx :: (srt_time st ++ " --> " ++ srt_time ed) :: txt ::
      "" :: srtBlocks (idx + 1) rest

/-- Lines of the subtitle file, numbering started at 1 as in enumerate. -/
def srtLines (entries : List (ℚ × ℚ × String)) : List String :=
  srtBlocks 1 entries

/-- Content written to the subtitle file at line 192. -/
def srtFileContent (entries : List (ℚ × ℚ × String)) : String :=
  pyStrip (String.intercalate "\n" (srtLines entries)) ++ "\n"

/-- Block numbers emitted by the serialization loop, in order. -/
def retainedNumbers : ℕ → List (ℚ × ℚ × String) → List ℕ
  | _, [] => []
  | idx, (_, _, txt) :: rest =>
    if txt = "" then retainedNumbers (idx + 1) rest
    else idx :: retainedNumbers (idx + 1) rest

/-- C2 counterexample: for the entry list with an empty-text entry followed
by a non-empty one, the retained block keeps number 2 (its position in the
full list), so the retained numbering is [2] and not the contiguous [1]
the claim requires. -/
theorem srt_numbering_gap_example :
    retainedNumbers 1 [(0, 1, ""), (1, 2, "A")] = [2] ∧
      ([2] : List ℕ) ≠ [1] ∧
      srtBlocks 1 [(0, 1, ""), (1, 2, "A")] =
        [natStr 2, srt_time 1 ++ " --> " ++ srt_time 2, "A", ""] := by
  refine ⟨?_, by decide, ?_⟩
  · simp [retainedNumbers]
  · simp [srtBlocks]

/-- C2 (amended): entries with empty text are skipped at serialization,
but the block number of a retained entry is its 1-based position in the
FULL entry list (the enumerate counter), so skipped empty entries leave
gaps instead of the numbering being contiguous over retained entries. -/
theorem srt_numbering_uses_full_positions
    (entries : List (ℚ × ℚ × String)) : ∀ i : ℕ,
    retainedNumbers i entries =
      (((entries.enumFrom i).filter (fun p => p.2.2.2 ≠ "")).map Prod.fst) ∧
    srtBlocks i entries =
      ((entries.enumFrom i).filter (fun p => p.2.2.2 ≠ "")).flatMap
        (fun p => [natStr p.1, srt_time p.2.1 ++ " --> " ++ srt_time p.2.2.1,
          p.2.2.2, ""]) := by
  induction entries with
  | nil => intro i; constructor <;> rfl
  | cons e rest ih =>
    intro i
    obtain ⟨st, ed, txt⟩ := e
    by_cases h : txt = "" <;>
      simp [retainedNumbers, srtBlocks, List.enumFrom, h, ih (i + 1)]

/-- Model of pathlib stem: the file name without its final dot suffix.
A name containing no dot is returned unchanged. -/
def stem (name : String) : String :=
  let r := name.data.reverse
  if '.' ∈ r then String.mk (((r.dropWhile (fun c => c != '.')).drop 1).reverse)
  else name

/-- First run of digit characters in a character list, as the number the
run denotes, or none when there is no digit (re.search at line 42). -/
def firstDigitRun : List Char → Option ℕ
  | [] => none
  | c :: rest =>
    if c.isDigit then some (digitsDenote (c :: rest.takeWhile Char.isDigit))
    else firstDigitRun rest

/-- Translation of natural_sort_key (lines 40 to 43): the first digit run
of the stem as an integer, with -1 as the sentinel when the stem holds no
digit, then the full name as tiebreaker. -/
def natural_sort_key (name : String) : ℤ × String :=
  match firstDigitRun (stem name).data with
  | some v => ((v : ℤ), name)
  | none => (-1, name)

/-- Strict comparison used by the sort at line 75: lexicographic strict
order on the key tuples. -/
def keyLT (a b : String) : Bool :=
  decide ((natural_sort_key a).1 < (natural_sort_key b).1) ||
    (decide ((natural_sort_key a).1 = (natural_sort_key b).1) &&
      decide ((natural_sort_key a).2 < (natural_sort_key b).2))

/-- Stable insertion: walk past strictly smaller keys only, so that equal
keys keep their original relative order. -/
def insertSorted (a : String) : List String → List String
  | [] => [a]
  | b :: l => if keyLT b a then b :: insertSorted a l else a :: b :: l

/-- Model of Python sorted with key natural_sort_key (line 75): a stable
sort by the key tuples. -/
def pySorted : List String → List String
  | [] => []
  | a :: l => insertSorted a (pySorted l)

/-- Enumeration of main at lines 161 to 163: position i in the sorted
sequence receives start offset i * segment_sec. -/
def withOffsets (d : ℚ) : ℕ → List String → List (String × ℚ)
  | _, [] => []
  | i, n :: rest => (n, (i : ℚ) * d) :: withOffsets d (i + 1) rest

/-- Segment catalog: segment names sorted by natural_sort_key, each paired
with the offset of its 0-based position in the sorted order. -/
def segmentCatalog (names : List String) (d : ℚ) : List (String × ℚ) :=
  withOffsets d 0 (pySorted names)

example : pySorted ["seg_000003.wav", "seg_000001.wav", "seg_000002.wav"] =
    ["seg_000001.wav", "seg_000002.wav", "seg_000003.wav"] := by decide

theorem natural_sort_key_snd (name : String) :
    (natural_sort_key name).2 = name := by
  unfold natural_sort_key
  split <;> rfl

/-- C4: the Segment Catalog orders files by the first digit run embedded
in the stem (a file without digits sorts first through the sentinel -1,
which is below every real index; ties are broken by full name), and each
segment receives as start offset its 0-based position in the sorted order times
the segment duration, not the embedded number: for seg_000003.wav,
seg_000001.wav, seg_000002.wav at duration 25 the catalog is seg_000001,
seg_000002, seg_000003 with offsets 0, 25, 50. -/
theorem segmentCatalog_positional :
    segmentCatalog ["seg_000003.wav", "seg_000001.wav", "seg_000002.wav"] 25 =
      [("seg_000001.wav", 0), ("seg_000002.wav", 25), ("seg_000003.wav", 50)] ∧
      (∀ a b : String, ∀ v : ℕ, firstDigitRun (stem a).data = none →
        firstDigitRun (stem b).data = some v → keyLT a b = true) ∧
      (∀ a b : String, (natural_sort_key a).1 = (natural_sort_key b).1 →
        (keyLT a b = true ↔ a < b)) := by
  refine ⟨?_, ?_, ?_⟩
  · have hsort :
        pySorted ["seg_000003.wav", "seg_000001.wav", "seg_000002.wav"] =
          ["seg_000001.wav", "seg_000002.wav", "seg_000003.wav"] := by decide
    norm_num [segmentCatalog, hsort, withOffsets]
  · intro a b v ha hb
    simp only [keyLT, natural_sort_key, ha, hb]
    simp only [Bool.or_eq_true, decide_eq_true_eq]
    left
    omega
  · intro a b h
    simp [keyLT, h, natural_sort_key_snd, lt_irrefl]

/-- Witness for segmentCatalog_positional: seg.wav has no digits and sorts
before seg_000001.wav. -/
theorem segmentCatalog_positional_witness :
    firstDigitRun (stem "seg.wav").data = none ∧
      firstDigitRun (stem "seg_000001.wav").data = some 1 ∧
      keyLT "seg.wav" "seg_000001.wav" = true :=
  ⟨by decide, by decide,
    segmentCatalog_positional.2.1 "seg.wav" "seg_000001.wav" 1
      (by decide) (by decide)⟩

/-! Structural lemmas about the assembler loop. -/

theorem buildSrtAux_start_mem (mls : ℚ) (mc : ℕ) (pad off : ℚ) :
    ∀ (l : List Subword) (toks : List String) (cst clst : Option ℚ),
      ∀ e ∈ buildSrtAux mls mc pad off l toks cst clst,
        cst = some e.1 ∨ ∃ sw ∈ l, e.1 = sw.seconds + off := by
  intro l
  induction l with
  | nil =>
    intro toks cst clst e he
    rcases toks with _ | ⟨t0, ts⟩ <;> rcases cst with _ | st <;>
      rcases clst with _ | la <;> simp [buildSrtAux] at he
    subst he
    exact Or.inl rfl
  | cons sw rest ih =>
    intro toks cst clst e he
    rcases cst with _ | st
    · simp only [buildSrtAux] at he
      rcases ih _ _ _ e he with h | ⟨sw2, hsw2, h2⟩
      · right
        refine ⟨sw, List.mem_cons_self _ _, ?_⟩
        exact (Option.some_inj.mp h).symm
      · exact Or.inr ⟨sw2, List.mem_cons_of_mem _ hsw2, h2⟩
    · simp only [buildSrtAux] at he
      split_ifs at he with hcond
      · rcases List.mem_cons.mp he with rfl | he2
        · exact Or.inl rfl
        · rcases ih _ _ _ e he2 with h | ⟨sw2, hsw2, h2⟩
          · cases h
          · exact Or.inr ⟨sw2, List.mem_cons_of_mem _ hsw2, h2⟩
      · rcases ih _ _ _ e he with h | ⟨sw2, hsw2, h2⟩
        · exact Or.inl h
        · exact Or.inr ⟨sw2, List.mem_cons_of_mem _ hsw2, h2⟩

theorem buildSrtAux_starts_sorted (mls : ℚ) (mc : ℕ) (pad off : ℚ) :
    ∀ (l : List Subword) (toks : List String) (cst clst : Option ℚ),
      List.Pairwise (fun a b : Subword => a.seconds ≤ b.seconds) l →
      (∀ st, cst = some st → ∀ sw ∈ l, st ≤ sw.seconds + off) →
      List.Pairwise (fun e1 e2 : ℚ × ℚ × String => e1.1 ≤ e2.1)
        (buildSrtAux mls mc pad off l toks cst clst) := by
  intro l
  induction l with
  | nil =>
    intro toks cst clst _ _
    rcases toks with _ | ⟨t0, ts⟩ <;> rcases cst with _ | st <;>
      rcases clst with _ | la <;> simp [buildSrtAux]
  | cons sw rest ih =>
    intro toks cst clst hsorted hcst
    have hsrest : List.Pairwise (fun a b : Subword => a.seconds ≤ b.seconds)
        rest := (List.pairwise_cons.mp hsorted).2
    have hhead : ∀ sw2 ∈ rest, sw.seconds ≤ sw2.seconds :=
      (List.pairwise_cons.mp hsorted).1
    rcases cst with _ | st
    · simp only [buildSrtAux]
      refine ih _ _ _ hsrest ?_
      intro st2 hst2 sw2 hsw2
      rcases Option.some_inj.mp hst2 with rfl
      have := hhead sw2 hsw2
      linarith
    · have hcstl : ∀ sw2 ∈ sw :: rest, st ≤ sw2.seconds + off :=
        hcst st rfl
      simp only [buildSrtAux]
      split_ifs with hcond
      · refine List.pairwise_cons.mpr ⟨?_, ?_⟩
        · intro e2 he2
          rcases buildSrtAux_start_mem mls mc pad off rest [] none none
              e2 he2 with h | ⟨sw2, hsw2, h2⟩
          · cases h
          · rw [h2]
            exact hcstl sw2 (List.mem_cons_of_mem _ hsw2)
        · refine ih _ _ _ hsrest ?_
          intro st2 hst2
          cases hst2
      · refine ih _ _ _ hsrest ?_
        intro st2 hst2 sw2 hsw2
        rcases Option.some_inj.mp hst2 with rfl
        exact hcstl sw2 (List.mem_cons_of_mem _ hsw2)

theorem buildSrtAux_start_le_end (mls : ℚ) (mc : ℕ) (pad off : ℚ)
    (hpad : 0 ≤ pad) :
    ∀ (l : List Subword) (toks : List String) (cst clst : Option ℚ),
      List.Pairwise (fun a b : Subword => a.seconds ≤ b.seconds) l →
      (∀ st, cst = some st → ∀ sw ∈ l, st ≤ sw.seconds + off) →
      (∀ st la, cst = some st → clst = some la → st ≤ la) →
      ∀ e ∈ buildSrtAux mls mc pad off l toks cst clst, e.1 ≤ e.2.1 := by
  intro l
  induction l with
  | nil =>
    intro toks cst clst _ _ hstla e he
    rcases toks with _ | ⟨t0, ts⟩ <;> rcases cst with _ | st <;>
      rcases clst with _ | la <;> simp [buildSrtAux] at he
    subst he
    have := hstla st la rfl rfl
    simp only
    linarith
  | cons sw rest ih =>
    intro toks cst clst hsorted hcst hstla e he
    have hsrest : List.Pairwise (fun a b : Subword => a.seconds ≤ b.seconds)
        rest := (List.pairwise_cons.mp hsorted).2
    have hhead : ∀ sw2 ∈ rest, sw.seconds ≤ sw2.seconds :=
      (List.pairwise_cons.mp hsorted).1
    rcases cst with _ | st
    · simp only [buildSrtAux] at he
      refine ih _ _ _ hsrest ?_ ?_ e he
      · intro st2 hst2 sw2 hsw2
        rcases Option.some_inj.mp hst2 with rfl
        have := hhead sw2 hsw2
        linarith
      · intro st2 la2 hst2 hla2
        rcases Option.some_inj.mp hst2 with rfl
        rcases Option.some_inj.mp hla2 with rfl
        exact le_refl _
    · have hcstl : ∀ sw2 ∈ sw :: rest, st ≤ sw2.seconds + off :=
        hcst st rfl
      simp only [buildSrtAux] at he
      split_ifs at he with hcond
      · rcases List.mem_cons.mp he with rfl | he2
        · have := hcstl sw (List.mem_cons_self _ _)
          simp only
          linarith
        · refine ih _ _ _ hsrest ?_ ?_ e he2
          · intro st2 hst2
            cases hst2
          · intro st2 la2 hst2
            cases hst2
      · refine ih _ _ _ hsrest ?_ ?_ e he
        · intro st2 hst2 sw2 hsw2
          rcases Option.some_inj.mp hst2 with rfl
          exact hcstl sw2 (List.mem_cons_of_mem _ hsw2)
        · intro st2 la2 hst2 hla2
          rcases Option.some_inj.mp hst2 with rfl
          rcases Option.some_inj.mp hla2 with rfl
          exact hcstl sw (List.mem_cons_self _ _)

theorem buildSrt_start_bounds (mls : ℚ) (mc : ℕ) (pad off : ℚ)
    (seg : List Subword) (lo hi : ℚ)
    (hlo : ∀ sw ∈ seg, lo ≤ sw.seconds) (hhi : ∀ sw ∈ seg, sw.seconds ≤ hi) :
    ∀ e ∈ buildSrtAux mls mc pad off seg [] none none,
      off + lo ≤ e.1 ∧ e.1 ≤ off + hi := by
  intro e he
  rcases buildSrtAux_start_mem mls mc pad off seg [] none none e he with
    h | ⟨sw, hsw, h2⟩
  · cases h
  · rw [h2]
    constructor
    · have := hlo sw hsw
      linarith
    · have := hhi sw hsw
      linarith

/-- C6 counterexample: for the non-decreasing token sequence of two blank
tokens at seconds 0 and 5 the assembler emits the entry (0, 5.25, "") with
default parameters: its text is empty after trimming, violating the
claimed data-model invariant (main only filters such entries later, at
serialization). -/
theorem buildSrt_empty_text_example :
    buildSrtDefault [⟨0, " "⟩, ⟨5, " "⟩] 0 = [(0, 21 / 4, "")] ∧
      pyStrip "" = "" := by
  constructor
  · have h1 : tokens_to_text [" ", " "] = "" := by decide
    norm_num [buildSrtDefault, build_srt_from_subwords, buildSrtAux, h1]
  · decide

/-- C6 (amended): for every token sequence with non-decreasing relative
times, every CaptionEntry produced by the assembler at the default
parameters satisfies start_sec ≤ end_sec.  The non-empty-text half of the
claimed invariant does not hold (see the counterexample): the text is the
trimmed buffer and can be empty. -/
theorem buildSrt_start_le_end (subwords : List Subword) (off : ℚ)
    (h : List.Pairwise (fun a b : Subword => a.seconds ≤ b.seconds) subwords) :
    ∀ e ∈ buildSrtDefault subwords off, e.1 ≤ e.2.1 := by
  intro e he
  refine buildSrtAux_start_le_end 4 26 (1 / 4) off (by norm_num)
    subwords [] none none h ?_ ?_ e he
  · intro st hst
    cases hst
  · intro st la hst
    cases hst

/-- Witness for buildSrt_start_le_end on the single token A at second 0. -/
theorem buildSrt_start_le_end_witness : (0 : ℚ) ≤ 0 + 1 / 4 := by
  have heval : buildSrtDefault [⟨0, "A"⟩] 0 = [(0, 0 + 1 / 4, "A")] := by
    have h1 : tokens_to_text ["A"] = "A" := by decide
    simp [buildSrtDefault, build_srt_from_subwords, buildSrtAux, h1]
  have hmem : ((0 : ℚ), (0 : ℚ) + 1 / 4, "A") ∈ buildSrtDefault [⟨0, "A"⟩] 0 := by
    rw [heval]
    exact List.mem_singleton.mpr rfl
  exact buildSrt_start_le_end [⟨0, "A"⟩] 0 (by simp)
    ((0 : ℚ), (0 : ℚ) + 1 / 4, "A") hmem

/-- Per-segment loop of main (lines 161 to 176) restricted to the subtitle
entries: the segment at 0-based position i receives offset i * segment_sec
and its entries, built at the default parameters, are appended in order. -/
def mainSrtAux (d : ℚ) : ℕ → List (List Subword) → List (ℚ × ℚ × String)
  | _, [] => []
  | i, seg :: rest =>
    buildSrtDefault seg ((i : ℚ) * d) ++ mainSrtAux d (i + 1) rest

/-- All subtitle entries of one run over the per-segment token lists. -/
def mainSrtEntries (segs : List (List Subword)) (d : ℚ) :
    List (ℚ × ℚ × String) :=
  mainSrtAux d 0 segs

theorem mainSrtAux_sorted (d : ℚ) :
    ∀ (segs : List (List Subword)) (i : ℕ),
      (∀ seg ∈ segs,
        List.Pairwise (fun a b : Subword => a.seconds ≤ b.seconds) seg ∧
        ∀ sw ∈ seg, 0 ≤ sw.seconds ∧ sw.seconds ≤ d) →
      List.Pairwise (fun e1 e2 : ℚ × ℚ × String => e1.1 ≤ e2.1)
          (mainSrtAux d i segs) ∧
        ∀ e ∈ mainSrtAux d i segs, ((i : ℚ) * d ≤ e.1 ∧ 0 ≤ d) := by
  intro segs
  induction segs with
  | nil =>
    intro i _
    refine ⟨List.Pairwise.nil, ?_⟩
    intro e he
    cases he
  | cons seg rest ih =>
    intro i hsegs
    have hseg := hsegs seg (List.mem_cons_self _ _)
    have hrest : ∀ s ∈ rest,
        List.Pairwise (fun a b : Subword => a.seconds ≤ b.seconds) s ∧
        ∀ sw ∈ s, 0 ≤ sw.seconds ∧ sw.seconds ≤ d := by
      intro s hs
      exact hsegs s (List.mem_cons_of_mem _ hs)
    have hih := ih (i + 1) hrest
    have hblock : ∀ e ∈ buildSrtDefault seg ((i : ℚ) * d),
        (i : ℚ) * d + 0 ≤ e.1 ∧ e.1 ≤ (i : ℚ) * d + d :=
      buildSrt_start_bounds 4 26 (1 / 4) ((i : ℚ) * d) seg 0 d
        (fun sw hsw => (hseg.2 sw hsw).1) (fun sw hsw => (hseg.2 sw hsw).2)
    have hdpos : ∀ e ∈ buildSrtDefault seg ((i : ℚ) * d), 0 ≤ d := by
      intro e he
      rcases buildSrtAux_start_mem 4 26 (1 / 4) ((i : ℚ) * d) seg [] none
          none e he with h | ⟨sw, hsw, _⟩
      · cases h
      · have h1 := (hseg.2 sw hsw).1
        have h2 := (hseg.2 sw hsw).2
        linarith
    have hcast : ((i : ℚ) + 1) * d = (((i + 1 : ℕ) : ℚ)) * d := by
      push_cast
      ring
    constructor
    · simp only [mainSrtAux]
      refine List.pairwise_append.mpr ⟨?_, hih.1, ?_⟩
      · exact buildSrtAux_starts_sorted 4 26 (1 / 4) ((i : ℚ) * d) seg []
          none none hseg.1 (fun st hst => by cases hst)
      · intro e1 he1 e2 he2
        have hb1 := (hblock e1 he1).2
        have hb2 := (hih.2 e2 he2).1
        have hd := hdpos e1 he1
        rw [← hcast] at hb2
        nlinarith
    · intro e he
      simp only [mainSrtAux] at he
      rcases List.mem_append.mp he with he1 | he2
      · have := (hblock e he1).1
        exact ⟨by linarith, hdpos e he1⟩
      · have h1 := (hih.2 e he2).1
        have hd := (hih.2 e he2).2
        rw [← hcast] at h1
        refine ⟨?_, hd⟩
        nlinarith

/-- C5: when the token times of every segment are non-decreasing and inside
[0, segment duration], the global entry list of a run is in non-decreasing
start_sec order, and every entry derived from a segment at position i
starts at or before every entry derived from a segment at any later
position j. -/
theorem mainSrtEntries_sorted (segs : List (List Subword)) (d : ℚ)
    (h : ∀ seg ∈ segs,
      List.Pairwise (fun a b : Subword => a.seconds ≤ b.seconds) seg ∧
      ∀ sw ∈ seg, 0 ≤ sw.seconds ∧ sw.seconds ≤ d) :
    List.Pairwise (fun e1 e2 : ℚ × ℚ × String => e1.1 ≤ e2.1)
        (mainSrtEntries segs d) ∧
      ∀ (i j : ℕ) (segi segj : List Subword), i < j →
        (∀ sw ∈ segi, 0 ≤ sw.seconds ∧ sw.seconds ≤ d) →
        (∀ sw ∈ segj, 0 ≤ sw.seconds ∧ sw.seconds ≤ d) →
        ∀ e1 ∈ buildSrtDefault segi ((i : ℚ) * d),
          ∀ e2 ∈ buildSrtDefault segj ((j : ℚ) * d), e1.1 ≤ e2.1 := by
  refine ⟨(mainSrtAux_sorted d segs 0 h).1, ?_⟩
  intro i j segi segj hij hsegi hsegj e1 he1 e2 he2
  have hb1 := buildSrt_start_bounds 4 26 (1 / 4) ((i : ℚ) * d) segi 0 d
    (fun sw hsw => (hsegi sw hsw).1) (fun sw hsw => (hsegi sw hsw).2) e1 he1
  have hb2 := buildSrt_start_bounds 4 26 (1 / 4) ((j : ℚ) * d) segj 0 d
    (fun sw hsw => (hsegj sw hsw).1) (fun sw hsw => (hsegj sw hsw).2) e2 he2
  have hd : 0 ≤ d := by
    rcases buildSrtAux_start_mem 4 26 (1 / 4) ((i : ℚ) * d) segi [] none
        none e1 he1 with hc | ⟨sw, hsw, _⟩
    · cases hc
    · have h1 := (hsegi sw hsw).1
      have h2 := (hsegi sw hsw).2
      linarith
  have hcast : ((i : ℚ) + 1) ≤ (j : ℚ) := by
    exact_mod_cast Nat.succ_le_of_lt hij
  nlinarith [hb1.2, hb2.1]

/-- Witness for mainSrtEntries_sorted on two one-token segments at
duration 25. -/
theorem mainSrtEntries_sorted_witness :
    List.Pairwise (fun e1 e2 : ℚ × ℚ × String => e1.1 ≤ e2.1)
      (mainSrtEntries [[⟨0, "A"⟩], [⟨0, "B"⟩]] 25) :=
  (mainSrtEntries_sorted [[⟨0, "A"⟩], [⟨0, "B"⟩]] 25 (by
    intro seg hseg
    rcases List.mem_cons.mp hseg with rfl | hseg2
    · refine ⟨by simp, ?_⟩
      intro sw hsw
      rcases List.mem_singleton.mp hsw with rfl
      norm_num
    · rcases List.mem_singleton.mp hseg2 with rfl
      refine ⟨by simp, ?_⟩
      intro sw hsw
      rcases List.mem_singleton.mp hsw with rfl
      norm_num)).1

/-- The same loop as buildSrtAux, recording for each flushed line the list
of raw tokens in its buffer instead of the rendered text (the cur_tokens
lists consumed at lines 120 and 126). -/
def buildBuffersAux (mls : ℚ) (mc : ℕ) (pad off : ℚ) :
    List Subword → List String → Option ℚ → Option ℚ → List (List String)
  | [], cur_tokens, cur_start, cur_last =>
    match cur_tokens, cur_start, cur_last with
    | _ :: _, some _, some _ => [cur_tokens]
    | _, _, _ => []
  | sw :: rest, cur_tokens, cur_start, _cur_last =>
    let t := sw.seconds + off
    let tok := sw.token
    match cur_start with
    | none => buildBuffersAux mls mc pad off rest [tok] (some t) (some t)
    | some st =>
      let toks := cur_tokens ++ [tok]
      let text := tokens_to_text toks
      if mls ≤ t - st ∨ mc ≤ text.length then
        toks :: buildBuffersAux mls mc pad off rest [] none none
      else
        buildBuffersAux mls mc pad off rest toks (some st) (some t)

theorem buildBuffersAux_join (mls : ℚ) (mc : ℕ) (pad off : ℚ) :
    ∀ (l : List Subword) (toks : List String) (cst clst : Option ℚ),
      (cst = none → toks = []) → (clst = none → toks = []) →
      (buildBuffersAux mls mc pad off l toks cst clst).flatten =
        toks ++ l.map Subword.token := by
  intro l
  induction l with
  | nil =>
    intro toks cst clst h1 h2
    rcases toks with _ | ⟨t0, ts⟩ <;> rcases cst with _ | st <;>
      rcases clst with _ | la <;>
        first
        | exact absurd (h1 rfl) (List.cons_ne_nil _ _)
        | exact absurd (h2 rfl) (List.cons_ne_nil _ _)
        | simp [buildBuffersAux]
  | cons sw rest ih =>
    intro toks cst clst h1 h2
    rcases cst with _ | st
    · rw [h1 rfl]
      simp only [buildBuffersAux]
      rw [ih [sw.token] (some (sw.seconds + off)) (some (sw.seconds + off))
        (by intro hc; cases hc) (by intro hc; cases hc)]
      simp
    · simp only [buildBuffersAux]
      split_ifs with hcond
      · simp only [List.flatten_cons]
        rw [ih [] none none (fun _ => rfl) (fun _ => rfl)]
        simp
      · rw [ih (toks ++ [sw.token]) (some st) (some (sw.seconds + off))
          (by intro hc; cases hc) (by intro hc; cases hc)]
        simp

theorem buildSrtAux_texts (mls : ℚ) (mc : ℕ) (pad off : ℚ) :
    ∀ (l : List Subword) (toks : List String) (cst clst : Option ℚ),
      (buildSrtAux mls mc pad off l toks cst clst).map (fun e => e.2.2) =
        (buildBuffersAux mls mc pad off l toks cst clst).map tokens_to_text := by
  intro l
  induction l with
  | nil =>
    intro toks cst clst
    rcases toks with _ | ⟨t0, ts⟩ <;> rcases cst with _ | st <;>
      rcases clst with _ | la <;> simp [buildSrtAux, buildBuffersAux]
  | cons sw rest ih =>
    intro toks cst clst
    rcases cst with _ | st
    · simp only [buildSrtAux, buildBuffersAux]
      exact ih _ _ _
    · simp only [buildSrtAux, buildBuffersAux]
      split_ifs with hcond
      · simp only [List.map_cons]
        rw [ih [] none none]
      · exact ih _ _ _

/-- C9: the assembler discards no token.  For a non-empty input sequence
the tokens are partitioned in order into the flushed buffers (the trailing
buffer included): the concatenation of the buffers is exactly the input
token list, and the emitted entries carry exactly these buffers, entry k
holding the trimmed join of buffer k. -/
theorem buildSrt_partitions_tokens (mls : ℚ) (mc : ℕ) (pad off : ℚ)
    (subwords : List Subword) (_hne : subwords ≠ []) :
    (buildBuffersAux mls mc pad off subwords [] none none).flatten =
        subwords.map Subword.token ∧
      (build_srt_from_subwords subwords off mls mc pad).map (fun e => e.2.2) =
        (buildBuffersAux mls mc pad off subwords [] none none).map
          tokens_to_text := by
  refine ⟨?_, buildSrtAux_texts mls mc pad off subwords [] none none⟩
  rw [buildBuffersAux_join mls mc pad off subwords [] none none
    (fun _ => rfl) (fun _ => rfl)]
  rfl

/-- Witness for buildSrt_partitions_tokens on the one-token input A with
the default parameters. -/
theorem buildSrt_partitions_tokens_witness :
    ([⟨0, "A"⟩] : List Subword) ≠ [] ∧
      ((buildBuffersAux 4 26 (1 / 4) 0 [⟨0, "A"⟩] [] none none).flatten =
          ([⟨0, "A"⟩] : List Subword).map Subword.token ∧
        (build_srt_from_subwords [⟨0, "A"⟩] 0 4 26 (1 / 4)).map
            (fun e => e.2.2) =
          (buildBuffersAux 4 26 (1 / 4) 0 [⟨0, "A"⟩] [] none none).map
            tokens_to_text) :=
  ⟨by simp, buildSrt_partitions_tokens 4 26 (1 / 4) 0 [⟨0, "A"⟩] (by simp)⟩

/-- Witness for srt_time_well_formed at input 0: the minute field value is
below 60. -/
theorem srt_time_well_formed_witness : (srtFields 0).2.1 < 60 :=
  (srt_time_well_formed 0).2.1

/-- Witness for fullTranscript_spec on one segment text. -/
theorem fullTranscript_spec_witness :
    fullTranscript ["a"] =
      pyStrip (String.intercalate "\n"
        ((["a"].map pyStrip).filter (fun s => s ≠ ""))) ++ "\n" :=
  fullTranscript_spec ["a"]

/-- Witness for srt_numbering_uses_full_positions on a one-entry list. -/
theorem srt_numbering_uses_full_positions_witness :
    retainedNumbers 1 [((0 : ℚ), (1 : ℚ), "A")] =
      ((([((0 : ℚ), (1 : ℚ), "A")].enumFrom 1).filter
        (fun p => p.2.2.2 ≠ "")).map Prod.fst) :=
  (srt_numbering_uses_full_positions [((0 : ℚ), (1 : ℚ), "A")] 1).1
